import Mathlib

/-!
Verification of the RSSible worker (`src/worker.js`, with the self-reference
selector variant from `src/unnamed/part_000`).

Shallow embedding conventions:
* JavaScript strings are modelled as `JStr := List Char` (sequences of code
  points).  `String.prototype.trim` is `jsTrim` (drop leading/trailing
  whitespace), `slice` is `take`/`drop`, `indexOf`/`lastIndexOf` return `Int`
  with `-1` for "not found", exactly as in JS.
* JavaScript numbers are modelled by `JSNum`: a finite rational, `nan`,
  or an infinity.  This captures `isFinite` and `Math.min` as used by
  `parseParams` for the `limit` parameter.
* `undefined`/`null` values are `Option`s; JS truthiness of a string-or-
  undefined value is `jsTruthy` (`none` and the empty string are falsy).
  Coercing `undefined` to a string (as `RegExp.test(undefined)` does) yields
  the literal string `"undefined"` (`jsStr`).
* Compiled regular expressions are abstracted to their `test` functions
  (`JStr → Bool`), and `new RegExp(pat, flags)` to an abstract
  `compile : JStr → JStr → Option (JStr → Bool)` that may fail.
  `new Date(s).toISOString()` is abstracted to `parseDate : JStr → Option JStr`
  (`none` models the thrown `RangeError` on an invalid date).
* The HTMLRewriter event stream is modelled by `Event` lists: container
  opens/closes for the item selector scope, text fragments (with their
  `lastInTextNode` flag) for each field scope, and element events carrying the
  `href` attribute for the link scope.  Container closes match opens LIFO,
  as end tags match start tags in the document.
-/

abbrev JStr := List Char

/-- Whitespace predicate used by the JS `trim` model. -/
def ws (c : Char) : Bool := c.isWhitespace

/-- Model of `String.prototype.trim`: drop leading and trailing whitespace. -/
def jsTrim (s : JStr) : JStr := List.rdropWhile ws (List.dropWhile ws s)

/-- Truthiness of a JS string-or-undefined value: `undefined` and `""` are falsy. -/
def jsTruthy : Option JStr → Bool
  | none => false
  | some s => s ≠ []

/-- ToString coercion of a JS string-or-undefined value: `String(undefined) = "undefined"`. -/
def jsStr : Option JStr → JStr
  | none => "undefined".data
  | some s => s

/-- Model of `safeCap` (worker.js lines 307-311): truncate to `maxChars` and trim. -/
def safeCap (text : JStr) (maxChars : Nat) : JStr :=
  if text = [] then []
  else if text.length ≤ maxChars then jsTrim text
  else jsTrim (text.take maxChars)

/-- JavaScript numbers, as far as `parseParams` needs them: a finite double
(modelled as a rational), `NaN`, or an infinity. -/
inductive JSNum where
  | finite (q : ℚ)
  | nan
  | posInf
  | negInf
deriving DecidableEq

/-- Model of `isFinite`. -/
def JSNum.isFinite : JSNum → Bool
  | .finite _ => true
  | _ => false

/-- Constant `DEFAULT_LIMIT` (worker.js line 30). -/
def DEFAULT_LIMIT : ℚ := 5

/-- Constant `MAX_LIMIT` (worker.js line 31). -/
def MAX_LIMIT : ℚ := 25

/-- Model of the limit computation in `parseParams` (worker.js lines 104-105):
`limit = Math.min(isFinite(limitRaw) ? limitRaw : DEFAULT_LIMIT, MAX_LIMIT)`.
The argument is the already-converted numeric value of the `limit` query
parameter (an absent or empty parameter converts to `DEFAULT_LIMIT` via
`query.get("limit") || DEFAULT_LIMIT`, hence arrives here as `finite 5`). -/
def parseLimit (raw : JSNum) : ℚ :=
  match raw with
  | .finite q => min q MAX_LIMIT
  | _ => min DEFAULT_LIMIT MAX_LIMIT

example : parseLimit (.finite 0) = 0 := by decide
example : parseLimit .nan = 5 := by decide
example : parseLimit (.finite 100) = 25 := by decide

/-- Per-item accumulator (`current` in `extractItems`, worker.js line 146):
`{ _text: "", title: "", desc: "" }` with `link` and `pubDate` initially
`undefined`. -/
structure Item where
  text : JStr
  title : JStr
  desc : JStr
  link : Option JStr
  pubDate : Option JStr
deriving DecidableEq

/-- The freshly allocated accumulator of worker.js line 146. -/
def freshItem : Item := ⟨[], [], [], none, none⟩

/-- Compiled field filters (`parseFilters` output): at most one regex `test`
function per supported key. -/
structure Filters where
  item : Option (JStr → Bool)
  title : Option (JStr → Bool)
  link : Option (JStr → Bool)
  desc : Option (JStr → Bool)

/-- The empty filter object `{}` (parseParams line 125, when no `filters`
parameter was given). -/
def emptyFilters : Filters := ⟨none, none, none, none⟩

/-- Model of `matchFilters` (worker.js lines 395-400).  Note that when
`item.link` is `undefined`, `filters.link.test(item.link)` coerces it to the
literal string `"undefined"` (`jsStr`). -/
def matchFilters (cur : Item) (f : Filters) : Bool :=
  if (match f.item with | some p => !(p cur.text) | none => false) then false
  else if (match f.title with | some p => !(p cur.title) | none => false) then false
  else if (match f.link with | some p => !(p (jsStr cur.link)) | none => false) then false
  else !(match f.desc with | some p => !(p cur.desc) | none => false)

/-- Request-level parameters consumed by `extractItems`:
the clamped `limit`, the (possibly `undefined`) compiled `filters`, the origin
of the source URL (`new URL(params.url).origin`), and the abstracted
`s => new Date(s).toISOString()` (`none` = the parse threw). -/
structure EParams where
  limit : ℚ
  filters : Option Filters
  origin : JStr
  parseDate : JStr → Option JStr

/-- HTMLRewriter events, as dispatched to the handlers `extractItems`
registers.  Text events carry the fragment and its `lastInTextNode` flag;
`linkElem` carries `getAttribute("href")`. -/
inductive Event where
  | itemStart
  | itemEnd
  | itemText (s : JStr) (last : Bool)
  | titleText (s : JStr) (last : Bool)
  | descText (s : JStr) (last : Bool)
  | dateText (s : JStr) (last : Bool)
  | linkElem (href : Option JStr)

/-- Mutable state of one `extractItems` run: the result array `items`, the
shared mutable `current` accumulator, the stack of pending containers
(`true` = an `onEndTag` callback was registered for that container,
worker.js line 147), and the `rawText` closure variable of the date handler
(worker.js line 216, which persists across items). -/
structure ExtractState where
  items : List Item
  current : Option Item
  openFlags : List Bool
  dateRaw : JStr
deriving DecidableEq

/-- The state at the start of `extractItems`. -/
def initState : ExtractState := ⟨[], none, [], []⟩

/-- Href resolution of the link handler (worker.js lines 189-194): a non-empty
href beginning with `/` resolves against the origin of the source URL; any
other href passes through verbatim. -/
def resolveHref (origin h : JStr) : JStr :=
  if h ≠ [] ∧ h.take 1 = ['/'] then origin ++ h else h

/-- Character caps (worker.js lines 137-140). -/
def CAP_TITLE : Nat := 128
def CAP_DESC : Nat := 1024
def CAP_DATE : Nat := 64
def CAP_ITEMTEXT : Nat := 2048

/-- One handler dispatch.  Each branch is the direct translation of the
corresponding handler in `extractItems` (worker.js lines 142-233).
`.error ()` models a thrown `TypeError` (reading a property of
`undefined`/`null`), which rejects the whole transform. -/
def extractStep (p : EParams) (st : ExtractState) : Event → Except Unit ExtractState
  | .itemStart =>
      -- element handler for `params.item` (lines 143-153)
      if (st.items.length : ℚ) ≥ p.limit then
        .ok { st with openFlags := false :: st.openFlags }
      else
        .ok { st with current := some freshItem, openFlags := true :: st.openFlags }
  | .itemEnd =>
      -- the `onEndTag` callback (lines 147-152), fired only if registered
      match st.openFlags with
      | [] => .ok st
      | flag :: rest =>
        if flag then
          match p.filters with
        | none => .error () -- matchFilters reads `filters.item` of undefined
        | some f =>
          match st.current with
          | none => .error () -- reads `current.title` of null
          | some cur =>
            let push := (cur.title ≠ [] ∨ jsTruthy cur.link = true) ∧ matchFilters cur f = true
            .ok { st with items := st.items ++ (if push then [cur] else []), openFlags := rest }
        else .ok { st with openFlags := rest }
  | .itemText s last =>
      -- text handler for `params.item` (lines 156-166)
      match p.filters with
      | none => .error () -- `params.filters.item` of undefined
      | some f =>
        if f.item.isNone then .ok st
        else if (st.items.length : ℚ) ≥ p.limit then .ok st
        else
          match st.current with
          | none => .error () -- `current._text` of null
          | some cur =>
            if cur.text.length ≥ CAP_ITEMTEXT then .ok st
            else
              let cur := if last then { cur with text := cur.text ++ [' '] } else cur
              let chunk := s
              let cur := if chunk ≠ [] then { cur with text := safeCap (cur.text ++ chunk) CAP_ITEMTEXT } else cur
              .ok { st with current := some cur }
  | .titleText s last =>
      -- text handler for `${params.item} ${params.title}` (lines 171-181)
      if (st.items.length : ℚ) ≥ p.limit then .ok st
      else
        match st.current with
        | none => if last ∨ jsTrim s ≠ [] then .error () else .ok st -- `current.title` of null
        | some cur =>
          let cur := if last then { cur with title := cur.title ++ [' '] } else cur
          let chunk := jsTrim s
          let cur := if chunk ≠ [] then { cur with title := safeCap (cur.title ++ chunk) CAP_TITLE } else cur
          .ok { st with current := some cur }
  | .descText s last =>
      -- text handler for `${params.item} ${params.desc}` (lines 201-211)
      if (st.items.length : ℚ) ≥ p.limit then .ok st
      else
        match st.current with
        | none => if last ∨ jsTrim s ≠ [] then .error () else .ok st -- `current.desc` of null
        | some cur =>
          let cur := if last then { cur with desc := cur.desc ++ [' '] } else cur
          let chunk := jsTrim s
          let cur := if chunk ≠ [] then { cur with desc := safeCap (cur.desc ++ chunk) CAP_DESC } else cur
          .ok { st with current := some cur }
  | .dateText s last =>
      -- text handler for `${params.item} ${params.date}` (lines 217-231)
      if (st.items.length : ℚ) ≥ p.limit then .ok st
      else
        match st.current with
        | none => .error () -- `current.pubDate` of null
        | some cur =>
          if jsTruthy cur.pubDate then .ok st
          else
            let raw := st.dateRaw ++ s
            if !last then .ok { st with dateRaw := raw }
            else
              let raw := safeCap raw CAP_DATE
              if raw = [] then .ok { st with dateRaw := raw }
              else
                match p.parseDate raw with
                | some iso => .ok { st with current := some { cur with pubDate := some iso }, dateRaw := raw }
                | none => .ok { st with dateRaw := [] }
  | .linkElem href =>
      -- element handler for the link scope (lines 185-196)
      match st.current with
      | none => .error () -- `current.link` of null
      | some cur =>
        if jsTruthy cur.link ∨ (st.items.length : ℚ) ≥ p.limit then .ok st
        else
          let h1 : Option JStr := match href with
            | none => none
            | some h => some (resolveHref p.origin h)
          match h1 with
          | some h => if h ≠ [] then .ok { st with current := some { cur with link := some h } } else .ok st
          | none => .ok st

/-- Run the rewriter over a stream of events (a thrown handler exception
aborts the transform). -/
def runExtract (p : EParams) : ExtractState → List Event → Except Unit ExtractState
  | st, [] => .ok st
  | st, e :: rest =>
    match extractStep p st e with
    | .error u => .error u
    | .ok st2 => runExtract p st2 rest

/-- The value `extractItems` resolves with: the `items` array. -/
def extractItems (p : EParams) (evs : List Event) : Except Unit (List Item) :=
  match runExtract p initState evs with
  | .error u => .error u
  | .ok st => .ok st.items

deriving instance DecidableEq for Except

/-! Generic facts about the JS string helpers. -/

theorem jsTrim_nil : jsTrim [] = [] := rfl

theorem jsTrim_prefixOf (s : JStr) : jsTrim s <+: s.dropWhile ws :=
  List.rdropWhile_prefix ws _

theorem jsTrim_length_le (s : JStr) : (jsTrim s).length ≤ s.length :=
  le_trans ((jsTrim_prefixOf s).length_le) ((List.dropWhile_suffix ws).length_le)

theorem head_dropWhile_false (l : JStr) (c : Char) (t : JStr)
    (h : l.dropWhile ws = c :: t) : ws c = false := by
  induction l with
  | nil => simp [List.dropWhile] at h
  | cons x xs ih =>
    rw [List.dropWhile_cons] at h
    by_cases hx : ws x = true
    · rw [if_pos hx] at h; exact ih h
    · rw [if_neg hx] at h
      cases h
      simpa using hx

theorem jsTrim_head_not_ws (s : JStr) (h : jsTrim s ≠ []) :
    ∃ c t, jsTrim s = c :: t ∧ ws c = false := by
  obtain ⟨c, t, hct⟩ := List.exists_cons_of_ne_nil h
  refine ⟨c, t, hct, ?_⟩
  have hpre := jsTrim_prefixOf s
  rw [hct] at hpre
  obtain ⟨u, hu⟩ := hpre
  exact head_dropWhile_false s c (t ++ u) (by rw [← hu]; simp)

theorem jsTrim_idem (s : JStr) : jsTrim (jsTrim s) = jsTrim s := by
  have h1 : List.dropWhile ws (jsTrim s) = jsTrim s := by
    rcases Decidable.em (jsTrim s = []) with h | h
    · rw [h]; rfl
    · obtain ⟨c, t, hct, hc⟩ := jsTrim_head_not_ws s h
      rw [hct, List.dropWhile_cons, hc]
      simp
  show List.rdropWhile ws (List.dropWhile ws (jsTrim s)) = jsTrim s
  rw [h1]
  show List.rdropWhile ws (List.rdropWhile ws (List.dropWhile ws s)) = _
  exact List.rdropWhile_idempotent ws _

theorem safeCap_length_le (s : JStr) (n : Nat) : (safeCap s n).length ≤ n := by
  unfold safeCap
  split
  · simp
  · split
    · exact le_trans (jsTrim_length_le s) (by assumption)
    · exact le_trans (jsTrim_length_le _) (by simp)

theorem safeCap_trimmed (s : JStr) (n : Nat) : jsTrim (safeCap s n) = safeCap s n := by
  unfold safeCap
  split
  · rfl
  · split
    · exact jsTrim_idem s
    · exact jsTrim_idem _

theorem runExtract_cons_ok {p : EParams} {st st2 : ExtractState} {e : Event} {rest : List Event}
    (h : extractStep p st e = .ok st2) :
    runExtract p st (e :: rest) = runExtract p st2 rest := by
  conv_lhs => unfold runExtract
  rw [h]

theorem runExtract_cons_error {p : EParams} {st : ExtractState} {e : Event} {rest : List Event}
    {u : Unit} (h : extractStep p st e = .error u) :
    runExtract p st (e :: rest) = .error u := by
  unfold runExtract
  rw [h]

theorem step_preserves_frame (p : EParams) (st st' : ExtractState) (e : Event)
    (he : extractStep p st e = .ok st')
    (h1 : e ≠ .itemStart) (h2 : e ≠ .itemEnd) :
    st'.items = st.items ∧ st'.openFlags = st.openFlags := by
  cases e with
  | itemStart => exact absurd rfl h1
  | itemEnd => exact absurd rfl h2
  | itemText s last =>
      simp only [extractStep] at he
      repeat' split at he
      all_goals cases he
      all_goals exact ⟨rfl, rfl⟩
  | titleText s last =>
      simp only [extractStep] at he
      repeat' split at he
      all_goals cases he
      all_goals exact ⟨rfl, rfl⟩
  | descText s last =>
      simp only [extractStep] at he
      repeat' split at he
      all_goals cases he
      all_goals exact ⟨rfl, rfl⟩
  | dateText s last =>
      simp only [extractStep] at he
      repeat' split at he
      all_goals cases he
      all_goals exact ⟨rfl, rfl⟩
  | linkElem href =>
      simp only [extractStep] at he
      repeat' split at he
      all_goals cases he
      all_goals exact ⟨rfl, rfl⟩

/-- Container opens/closes are non-nested in the event stream: an `itemStart`
occurs only at container depth 0 (the degenerate nested-container markup that
the engine does not support is excluded). -/
def flatOk : List Event → Nat → Bool
  | [], _ => true
  | .itemStart :: rest, d => d == 0 && flatOk rest 1
  | .itemEnd :: rest, d => flatOk rest (d - 1)
  | _ :: rest, d => flatOk rest d

theorem len_succ_le_ceil {len : Nat} {q : ℚ} (h : (len : ℚ) < q) :
    len + 1 ≤ (⌈q⌉).toNat := by
  have h1 : (len : ℤ) < ⌈q⌉ := Int.lt_ceil.mpr (by exact_mod_cast h)
  omega

theorem runExtract_bound_aux (p : EParams) :
    ∀ (evs : List Event) (st : ExtractState) (d : Nat),
      flatOk evs d = true → d ≤ 1 →
      st.items.length ≤ (⌈p.limit⌉).toNat →
      (d = 0 → st.openFlags = []) →
      (d = 1 → st.openFlags = [] ∨
        ∃ b, st.openFlags = [b] ∧ (b = true → (st.items.length : ℚ) < p.limit)) →
      ∀ st', runExtract p st evs = .ok st' → st'.items.length ≤ (⌈p.limit⌉).toNat := by
  intro evs
  induction evs with
  | nil =>
      intro st d _ _ hlen _ _ st' hrun
      cases hrun
      exact hlen
  | cons e rest ih =>
      intro st d hflat hd hlen h0 h1 st' hrun
      cases hstep : extractStep p st e with
      | error u => rw [runExtract_cons_error hstep] at hrun; cases hrun
      | ok st2 =>
        rw [runExtract_cons_ok hstep] at hrun
        cases e with
        | itemStart =>
            simp only [flatOk, Bool.and_eq_true, beq_iff_eq] at hflat
            have hflags := h0 hflat.1
            simp only [extractStep] at hstep
            split at hstep
            next hge =>
              cases hstep
              refine ih _ 1 hflat.2 (by omega) ?_ (by omega) ?_ st' hrun
              · exact hlen
              · intro _
                exact Or.inr ⟨false, by simp [hflags], by simp⟩
            next hge =>
              cases hstep
              refine ih _ 1 hflat.2 (by omega) ?_ (by omega) ?_ st' hrun
              · exact hlen
              · intro _
                exact Or.inr ⟨true, by simp [hflags], fun _ => not_le.mp hge⟩
        | itemEnd =>
            have hf : flatOk rest (d - 1) = true := hflat
            simp only [extractStep] at hstep
            split at hstep
            next hfl =>
              cases hstep
              refine ih _ (d - 1) hf (by omega) ?_ ?_ ?_ st' hrun
              · exact hlen
              · intro _; exact hfl
              · intro _; exact Or.inl hfl
            next flag restF hfl =>
              have hd1 : d = 1 := by
                rcases Nat.eq_or_lt_of_le hd with h | h
                · exact h
                · exfalso
                  have hnil := h0 (by omega)
                  rw [hnil] at hfl
                  cases hfl
              rcases h1 hd1 with hnil | ⟨b, hb, hbl⟩
              · rw [hnil] at hfl; cases hfl
              rw [hb] at hfl
              cases hfl
              -- now flag = b, restF = []
              split at hstep
              next hflagT =>
                have hlt : (st.items.length : ℚ) < p.limit := hbl hflagT
                split at hstep
                next => cases hstep
                next f hpf =>
                  split at hstep
                  next => cases hstep
                  next cur hcur =>
                    cases hstep
                    refine ih _ (d - 1) hf (by omega) ?_ (by intro _; rfl) ?_ st' hrun
                    · refine le_trans ?_ (len_succ_le_ceil hlt)
                      simp only [List.length_append]
                      have h2 : (if (cur.title ≠ [] ∨ jsTruthy cur.link = true) ∧
                          matchFilters cur f = true then [cur] else []).length ≤ 1 := by
                        split <;> simp
                      omega
                    · intro h; omega
              next hflagF =>
                cases hstep
                refine ih _ (d - 1) hf (by omega) ?_ (by intro _; rfl) ?_ st' hrun
                · exact hlen
                · intro h; omega
        | itemText s last =>
            have hf : flatOk rest d = true := hflat
            obtain ⟨hi, ho⟩ := step_preserves_frame p st st2 _ hstep
              (fun h => Event.noConfusion h) (fun h => Event.noConfusion h)
            refine ih _ d hf hd ?_ ?_ ?_ st' hrun
            · rw [hi]; exact hlen
            · intro h; rw [ho]; exact h0 h
            · intro h; rw [ho, hi]; exact h1 h
        | titleText s last =>
            have hf : flatOk rest d = true := hflat
            obtain ⟨hi, ho⟩ := step_preserves_frame p st st2 _ hstep
              (fun h => Event.noConfusion h) (fun h => Event.noConfusion h)
            refine ih _ d hf hd ?_ ?_ ?_ st' hrun
            · rw [hi]; exact hlen
            · intro h; rw [ho]; exact h0 h
            · intro h; rw [ho, hi]; exact h1 h
        | descText s last =>
            have hf : flatOk rest d = true := hflat
            obtain ⟨hi, ho⟩ := step_preserves_frame p st st2 _ hstep
              (fun h => Event.noConfusion h) (fun h => Event.noConfusion h)
            refine ih _ d hf hd ?_ ?_ ?_ st' hrun
            · rw [hi]; exact hlen
            · intro h; rw [ho]; exact h0 h
            · intro h; rw [ho, hi]; exact h1 h
        | dateText s last =>
            have hf : flatOk rest d = true := hflat
            obtain ⟨hi, ho⟩ := step_preserves_frame p st st2 _ hstep
              (fun h => Event.noConfusion h) (fun h => Event.noConfusion h)
            refine ih _ d hf hd ?_ ?_ ?_ st' hrun
            · rw [hi]; exact hlen
            · intro h; rw [ho]; exact h0 h
            · intro h; rw [ho, hi]; exact h1 h
        | linkElem href =>
            have hf : flatOk rest d = true := hflat
            obtain ⟨hi, ho⟩ := step_preserves_frame p st st2 _ hstep
              (fun h => Event.noConfusion h) (fun h => Event.noConfusion h)
            refine ih _ d hf hd ?_ ?_ ?_ st' hrun
            · rw [hi]; exact hlen
            · intro h; rw [ho]; exact h0 h
            · intro h; rw [ho, hi]; exact h1 h

/-- C1 counterexample: the requested value 0 is accepted as the effective limit
(`Math.min` clamps only from above; there is no lower clamp to 1), so the
effective limit is 0, outside the claimed range [1, MAX_LIMIT]; the engine then
returns no items at all even for a document with a matching container. -/
def pZero : EParams :=
  { limit := parseLimit (JSNum.finite 0)
    filters := some emptyFilters
    origin := []
    parseDate := fun _ => none }

theorem c1_counterexample :
    parseLimit (JSNum.finite 0) = 0 ∧ ¬(1 ≤ parseLimit (JSNum.finite 0)) ∧
    extractItems pZero [.itemStart, .itemEnd] = .ok [] := by
  refine ⟨by decide, by decide, by decide⟩

/-- C1 (amended): the effective limit is `min(requested, MAX_LIMIT)` for finite
input and `DEFAULT_LIMIT` for non-finite input (no lower clamp: zero, negative
and fractional limits pass through); for a non-nested container stream, a
completed extraction returns at most `max(0, ⌈L⌉)` items; and once the item
list has reached the limit, a further container open is not processed (no
accumulator is allocated and no end-tag callback is registered). -/
theorem c1_limit_clamp_and_bound
    (raw : JSNum) (p : EParams) (evs : List Event) (items : List Item)
    (hlim : p.limit = parseLimit raw)
    (hflat : flatOk evs 0 = true)
    (hrun : extractItems p evs = .ok items) :
    parseLimit raw ≤ MAX_LIMIT
    ∧ (raw.isFinite = false → parseLimit raw = DEFAULT_LIMIT)
    ∧ items.length ≤ (⌈parseLimit raw⌉).toNat
    ∧ (∀ st : ExtractState, (st.items.length : ℚ) ≥ p.limit →
        extractStep p st .itemStart = .ok { st with openFlags := false :: st.openFlags }) := by
  refine ⟨?_, ?_, ?_, ?_⟩
  · cases raw <;> simp [parseLimit, min_le_right]
  · intro h
    cases raw with
    | finite q => simp [JSNum.isFinite] at h
    | nan => simp [parseLimit]; decide
    | posInf => simp [parseLimit]; decide
    | negInf => simp [parseLimit]; decide
  · unfold extractItems at hrun
    split at hrun
    · cases hrun
    · next st hr =>
        cases hrun
        rw [← hlim]
        exact runExtract_bound_aux p evs initState 0 hflat (by omega) (by simp [initState])
          (fun _ => rfl) (fun h => by omega) st hr
  · intro st hge
    simp only [extractStep]
    rw [if_pos hge]

/-- Witness for C1: a run with requested limit 2 over a single-container
document yields one item, within the bound. -/
def pTwo : EParams :=
  { limit := parseLimit (JSNum.finite 2)
    filters := some emptyFilters
    origin := []
    parseDate := fun _ => none }

theorem c1_witness :
    ([{ freshItem with title := "t".data }] : List Item).length ≤
      (⌈parseLimit (JSNum.finite 2)⌉).toNat :=
  (c1_limit_clamp_and_bound (JSNum.finite 2) pTwo
    [.itemStart, .titleText "t".data true, .itemEnd]
    [{ freshItem with title := "t".data }] rfl (by decide) (by decide)).2.2.1

theorem matchFilters_eq (cur : Item) (f : Filters) :
    matchFilters cur f =
      (f.item.all (fun pr => pr cur.text) && f.title.all (fun pr => pr cur.title) &&
       f.link.all (fun pr => pr (jsStr cur.link)) && f.desc.all (fun pr => pr cur.desc)) := by
  rcases f with ⟨fi, ft, fl, fd⟩
  unfold matchFilters
  cases fi <;> cases ft <;> cases fl <;> cases fd <;>
    simp [Option.all, Bool.and_assoc]

/-- Inclusion condition exactly as claim C2 states it: every configured filter
matches the corresponding accumulated string, where an absent link has the
empty accumulated string. -/
def filtersPassSpec (cur : Item) (f : Filters) : Bool :=
  f.item.all (fun pr => pr cur.text) && f.title.all (fun pr => pr cur.title) &&
  f.link.all (fun pr => pr (cur.link.getD [])) && f.desc.all (fun pr => pr cur.desc)

def filtersLinkNonempty : Filters :=
  { item := none, title := none, link := some (fun s => decide (s ≠ [])), desc := none }

def pC2 : EParams :=
  { limit := 5
    filters := some filtersLinkNonempty
    origin := []
    parseDate := fun _ => none }

/-- C2 counterexample: with a configured link filter whose regex (e.g.
`/[^]/`, matching any non-empty string) does not match the empty string, an
item with a non-empty title and *no* link is still appended, because
`filters.link.test(item.link)` coerces the undefined link to the string
"undefined" instead of testing the accumulated (empty) link string. -/
theorem c2_counterexample :
    extractItems pC2 [.itemStart, .titleText "t".data true, .itemEnd] =
      .ok [{ freshItem with title := "t".data }] ∧
    filtersPassSpec { freshItem with title := "t".data } filtersLinkNonempty = false := by
  refine ⟨by decide, by decide⟩

/-- C2 (amended): at container close (with a registered end-tag callback, a
live accumulator and a defined filter object), the item is appended iff it has
a non-empty title or link and every configured field filter matches — item
text, title and description filters test the accumulated strings, while the
link filter tests the accumulated link if one was set and the JS string
coercion "undefined" when no link was captured; an absent filter never
excludes. -/
theorem c2_included_iff (p : EParams) (f : Filters) (st st' : ExtractState)
    (cur : Item) (rest : List Bool)
    (hf : p.filters = some f) (hcur : st.current = some cur)
    (hflags : st.openFlags = true :: rest)
    (hstep : extractStep p st .itemEnd = .ok st') :
    (st'.items = st.items ++ [cur] ↔
      (cur.title ≠ [] ∨ jsTruthy cur.link = true) ∧
      f.item.all (fun pr => pr cur.text) = true ∧
      f.title.all (fun pr => pr cur.title) = true ∧
      f.link.all (fun pr => pr (jsStr cur.link)) = true ∧
      f.desc.all (fun pr => pr cur.desc) = true)
    ∧ (st'.items = st.items ++ [cur] ∨ st'.items = st.items) := by
  simp only [extractStep, hflags, hf, hcur, if_true] at hstep
  have hval : st' = { st with
      items := st.items ++
        (if (cur.title ≠ [] ∨ jsTruthy cur.link = true) ∧ matchFilters cur f = true
         then [cur] else []),
      openFlags := rest } := by
    cases hstep
    rw [hcur]
  subst hval
  constructor
  · constructor
    · intro hitems
      by_cases hc : (cur.title ≠ [] ∨ jsTruthy cur.link = true) ∧ matchFilters cur f = true
      · refine ⟨hc.1, ?_⟩
        have := hc.2
        rw [matchFilters_eq] at this
        simp only [Bool.and_eq_true] at this
        exact ⟨this.1.1.1, this.1.1.2, this.1.2, this.2⟩
      · rw [if_neg hc] at hitems
        simp at hitems
    · rintro ⟨h1, h2, h3, h4, h5⟩
      have hc : (cur.title ≠ [] ∨ jsTruthy cur.link = true) ∧ matchFilters cur f = true := by
        refine ⟨h1, ?_⟩
        rw [matchFilters_eq]
        simp [h2, h3, h4, h5]
      simp [if_pos hc]
  · by_cases hc : (cur.title ≠ [] ∨ jsTruthy cur.link = true) ∧ matchFilters cur f = true
    · exact Or.inl (by simp [if_pos hc])
    · exact Or.inr (by simp [if_neg hc])

/-- Witness for C2 (amended): a concrete finalize with a title filter that
matches appends the item; instantiating the iff at that step. -/
theorem c2_witness :
    ((⟨[{ freshItem with title := "t".data }], some { freshItem with title := "t".data },
        [], []⟩ : ExtractState).items =
      ([] : List Item) ++ [{ freshItem with title := "t".data }] ↔
      (({ freshItem with title := "t".data } : Item).title ≠ [] ∨
        jsTruthy ({ freshItem with title := "t".data } : Item).link = true) ∧
      (emptyFilters.item.all (fun pr => pr ({ freshItem with title := "t".data } : Item).text)
        = true) ∧
      (emptyFilters.title.all (fun pr => pr ({ freshItem with title := "t".data } : Item).title)
        = true) ∧
      (emptyFilters.link.all
        (fun pr => pr (jsStr ({ freshItem with title := "t".data } : Item).link)) = true) ∧
      (emptyFilters.desc.all (fun pr => pr ({ freshItem with title := "t".data } : Item).desc)
        = true))
    ∧ ((⟨[{ freshItem with title := "t".data }], some { freshItem with title := "t".data },
        [], []⟩ : ExtractState).items =
        ([] : List Item) ++ [{ freshItem with title := "t".data }] ∨
       (⟨[{ freshItem with title := "t".data }], some { freshItem with title := "t".data },
        [], []⟩ : ExtractState).items = ([] : List Item)) :=
  c2_included_iff pTwo emptyFilters
    ⟨[], some { freshItem with title := "t".data }, [true], []⟩
    ⟨[{ freshItem with title := "t".data }], some { freshItem with title := "t".data }, [], []⟩
    { freshItem with title := "t".data } [] rfl rfl rfl (by decide)

/-- Deliver one text node's content as a list of consecutive fragments: all
fragments carry `lastInTextNode = false` except the final one. -/
def dateFragEvents : List JStr → List Event
  | [] => []
  | [c] => [.dateText c true]
  | c :: rest => .dateText c false :: dateFragEvents rest

/-- C3 counterexample: the same title-node content "ab", delivered as one
fragment versus two fragments ("a" then "b"), yields different final titles
("ab" versus "a b"): the synthetic space is appended before the *last
fragment* of a node, not between nodes, so an interior chunk boundary in the
node inserts a space. -/
theorem c3_counterexample :
    extractItems pTwo [.itemStart, .titleText "ab".data true, .itemEnd] =
      .ok [{ freshItem with title := "ab".data }] ∧
    extractItems pTwo [.itemStart, .titleText "a".data false, .titleText "b".data true,
      .itemEnd] = .ok [{ freshItem with title := "a b".data }] ∧
    "a".data ++ "b".data = "ab".data ∧
    "ab".data ≠ "a b".data := by
  refine ⟨by decide, by decide, by decide, by decide⟩

/-- C3 (amended): chunk-boundary invariance fails for the title, description
and item-text fields (the synthetic space is inserted before a node's last
fragment, and per-fragment trimming can drop interior whitespace), but holds
for the date field: the date handler concatenates raw fragments and only
caps/parses once the node is complete, so delivering a node's content as 1 or
N consecutive fragments produces identical runs from any state. -/
theorem c3_date_field_invariant (p : EParams) (frags : List JStr) (hne : frags ≠ []) :
    ∀ st : ExtractState,
      runExtract p st (dateFragEvents frags) =
        runExtract p st [.dateText frags.flatten true] := by
  induction frags with
  | nil => exact absurd rfl hne
  | cons c rest ih =>
      intro st
      cases rest with
      | nil =>
          simp [dateFragEvents, List.flatten]
      | cons r rs =>
          have hdfe : dateFragEvents (c :: r :: rs) =
              .dateText c false :: dateFragEvents (r :: rs) := rfl
          rw [hdfe]
          rcases Decidable.em ((st.items.length : ℚ) ≥ p.limit) with hge | hge
          · have hstep : extractStep p st (.dateText c false) = .ok st := by
              simp [extractStep, hge]
            rw [runExtract_cons_ok hstep, ih (by simp) st]
            simp [runExtract, extractStep, hge]
          · cases hcur : st.current with
            | none =>
                have hstep : extractStep p st (.dateText c false) = .error () := by
                  simp [extractStep, hge, hcur]
                rw [runExtract_cons_error hstep]
                simp [runExtract, extractStep, hge, hcur]
            | some cur =>
                cases hpd : jsTruthy cur.pubDate with
                | true =>
                    have hstep : extractStep p st (.dateText c false) = .ok st := by
                      simp [extractStep, hge, hcur, hpd]
                    rw [runExtract_cons_ok hstep, ih (by simp) st]
                    simp [runExtract, extractStep, hge, hcur, hpd]
                | false =>
                    have hstep : extractStep p st (.dateText c false) =
                        .ok { st with dateRaw := st.dateRaw ++ c } := by
                      simp [extractStep, hge, hcur, hpd]
                    rw [runExtract_cons_ok hstep,
                      ih (by simp) { st with dateRaw := st.dateRaw ++ c }]
                    simp [runExtract, extractStep, hge, hcur, hpd, List.flatten,
                      List.append_assoc]

/-- Witness for C3 (amended): a two-fragment date node equals its one-fragment
delivery on a concrete run. -/
theorem c3_witness :
    runExtract pTwo initState (dateFragEvents ["20".data, "20".data]) =
      runExtract pTwo initState [.dateText (["20".data, "20".data] : List JStr).flatten true] :=
  c3_date_field_invariant pTwo ["20".data, "20".data] (by decide) initState

/-- Model of JS `String.prototype.indexOf` for a single character: first index
or `-1`. -/
def jsIndexOf (c : Char) (s : JStr) : Int :=
  match s.findIdx? (· = c) with
  | some i => (i : Int)
  | none => -1

/-- Model of JS `String.prototype.lastIndexOf` for a single character: last
index or `-1`. -/
def jsLastIndexOf (c : Char) (s : JStr) : Int :=
  match s.reverse.findIdx? (· = c) with
  | some i => ((s.length - 1 - i : Nat) : Int)
  | none => -1

/-- Model of JS `String.prototype.toLowerCase` (ASCII range suffices for the
fixed keys and header names appearing in the worker). -/
def jsToLower (s : JStr) : JStr := s.map Char.toLower

/-- Model of JS `String.prototype.replace(find, repl)` with a string pattern:
replaces the first occurrence only. -/
def jsReplaceFirst (find repl : JStr) : JStr → JStr
  | [] => if find = [] then repl else []
  | c :: t =>
    if find = [] then repl ++ c :: t
    else if find.isPrefixOf (c :: t) then repl ++ (c :: t).drop find.length
    else c :: jsReplaceFirst find repl t

/-- Strip one trailing carriage return (the `\r?` of the `/\r?\n/` line
separator). -/
def dropCr (l : JStr) : JStr := if l.getLast? = some '\r' then l.dropLast else l

/-- Model of `block.split(/\r?\n/)`. -/
def splitLines (s : JStr) : List JStr :=
  let ps := List.splitOn '\n' s
  ps.dropLast.map dropCr ++ ps.drop (ps.length - 1)

/-- Assignment `out[key] = regex` in `parseFilters`, for a key already known
to be one of the four supported ones. -/
def filtersSet (out : Filters) (key : JStr) (r : JStr → Bool) : Filters :=
  if key = "item".data then { out with item := some r }
  else if key = "title".data then { out with title := some r }
  else if key = "link".data then { out with link := some r }
  else { out with desc := some r }

/-- One iteration of the `parseFilters` loop (worker.js lines 363-390),
given the abstract regex compiler. -/
def parseFiltersLine (compile : JStr → JStr → Option (JStr → Bool)) (out : Filters)
    (rawLine : JStr) : Filters :=
  let line := jsTrim rawLine
  if line = [] then out
  else
    let eq := jsIndexOf '=' line
    if eq ≤ 0 then out
    else
      let key := jsToLower (jsTrim (line.take eq.toNat))
      if ¬(key = "item".data ∨ key = "title".data ∨ key = "link".data ∨ key = "desc".data)
      then out
      else
        let regex := jsTrim (line.drop (eq.toNat + 1))
        if ¬(regex.take 1 = ['/']) then out
        else
          let lastSlash := jsLastIndexOf '/' regex
          if lastSlash ≤ 0 then out
          else
            let pattern := (regex.take lastSlash.toNat).drop 1
            if pattern = [] then out
            else
              let flags := regex.drop (lastSlash.toNat + 1)
              let pat := jsReplaceFirst "/".data "/".data pattern
              match compile pat flags with
              | some r => filtersSet out key r
              | none => out

/-- Does the filter object have any key assigned (`Object.keys(out).length`)? -/
def Filters.hasAny (f : Filters) : Bool :=
  f.item.isSome || f.title.isSome || f.link.isSome || f.desc.isSome

/-- Model of `parseFilters` (worker.js lines 361-393): processes every line,
silently skipping malformed ones, and returns `undefined` (`none`) when no
rule survived. -/
def parseFilters (compile : JStr → JStr → Option (JStr → Bool)) (block : JStr) :
    Option Filters :=
  let out := (splitLines block).foldl (parseFiltersLine compile) emptyFilters
  if out.hasAny then some out else none

/-- Model of the `filters` wiring in `parseParams` (worker.js lines 124-125):
`const filters = filterRaw ? parseFilters(filterRaw) : {}`. -/
def paramsFilters (compile : JStr → JStr → Option (JStr → Bool))
    (filtersParam : Option JStr) : Option Filters :=
  match filtersParam with
  | none => some emptyFilters
  | some raw =>
    let filterRaw := jsTrim raw
    if filterRaw ≠ [] then parseFilters compile filterRaw else some emptyFilters

/-- Concrete abstract regex compiler for the C4 demonstration: compilation of
the pattern `(` fails (as it does for the real `new RegExp`), anything else
compiles to a prefix test. -/
def compileC4 : JStr → JStr → Option (JStr → Bool) :=
  fun pat _flags => if pat = "(".data then none else some (fun s => pat.isPrefixOf s)

def pC4bad : EParams :=
  { limit := 5
    filters := paramsFilters compileC4 (some "date=/x/".data)
    origin := []
    parseDate := fun _ => none }

def pC4good : EParams :=
  { limit := 5
    filters := paramsFilters compileC4 (some "title=/B/\nbogus\ndate=/x/\nlink=/(/".data)
    origin := []
    parseDate := fun _ => none }

/-- C4: when every line of the `filters` block is dropped (here the
unsupported key `date`), `parseFilters` returns `undefined` instead of an
empty object, and the very first container close (or any text inside an item)
dereferences `params.filters.item` on `undefined`: the extraction throws a
`TypeError` and the request fails, contradicting the claim that processing
the `filters` parameter never fails the request.  The second half shows the
claim's expectation holding as long as at least one line survives: unknown
keys, malformed lines and uncompilable regexes are dropped, the surviving
`title` rule takes effect, and extraction completes. -/
theorem c4_filters_undefined_throws :
    (paramsFilters compileC4 (some "date=/x/".data)).isNone = true ∧
    runExtract pC4bad initState [.itemStart, .itemEnd] = .error () ∧
    ((paramsFilters compileC4 (some "title=/B/\nbogus\ndate=/x/\nlink=/(/".data)).map
      (fun f => (f.item.isSome, f.title.isSome, f.link.isSome, f.desc.isSome))) =
      some (false, true, false, false) ∧
    extractItems pC4good [.itemStart, .titleText "Breaking".data true, .itemEnd] =
      .ok [{ freshItem with title := "Breaking".data }] ∧
    extractItems pC4good [.itemStart, .titleText "quiet".data true, .itemEnd] = .ok [] := by
  refine ⟨by decide, by decide, by decide, by decide, by decide⟩

set_option maxRecDepth 8000 in
/-- C5 counterexample: a 128-character title followed by an empty final
fragment.  The synthetic space (`current.title += " "`) is appended after the
cap/trim was applied and is itself never re-capped or re-trimmed, so the
accumulated and finalized title has 129 characters (exceeding CAP_TITLE = 128)
and carries trailing whitespace. -/
theorem c5_counterexample :
    extractItems pTwo [.itemStart, .titleText (List.replicate 128 'a') false,
      .titleText [] true, .itemEnd] =
      .ok [{ freshItem with title := List.replicate 128 'a' ++ [' '] }] ∧
    (List.replicate 128 'a' ++ [' ']).length = 129 ∧ ¬(129 ≤ CAP_TITLE) ∧
    jsTrim (List.replicate 128 'a' ++ [' ']) ≠ List.replicate 128 'a' ++ [' '] := by
  refine ⟨by decide, by decide, by decide, by decide⟩

/-- C5 (amended): `safeCap` output never exceeds the cap and is always
trimmed, and therefore whenever a handler appends a non-empty chunk the
stored field (title/desc/item text) is within its cap and trimmed, and the
date accumulator is within CAP_DATE after each completed node; the exception
is the synthetic node-boundary space, which is appended without re-capping or
re-trimming (see the counterexample), so a field may exceed its cap and carry
trailing spaces until the next non-empty chunk is appended. -/
theorem c5_caps_and_trim :
    (∀ (s : JStr) (n : Nat), (safeCap s n).length ≤ n ∧ jsTrim (safeCap s n) = safeCap s n)
    ∧ (∀ (p : EParams) (st st' : ExtractState) (s : JStr) (last : Bool) (cur' : Item),
        extractStep p st (.titleText s last) = .ok st' → st'.current = some cur' →
        ¬((st.items.length : ℚ) ≥ p.limit) → jsTrim s ≠ [] →
        cur'.title.length ≤ CAP_TITLE ∧ jsTrim cur'.title = cur'.title)
    ∧ (∀ (p : EParams) (st st' : ExtractState) (s : JStr) (last : Bool) (cur' : Item),
        extractStep p st (.descText s last) = .ok st' → st'.current = some cur' →
        ¬((st.items.length : ℚ) ≥ p.limit) → jsTrim s ≠ [] →
        cur'.desc.length ≤ CAP_DESC ∧ jsTrim cur'.desc = cur'.desc)
    ∧ (∀ (p : EParams) (f : Filters) (st st' : ExtractState) (s : JStr) (last : Bool)
        (cur cur' : Item),
        p.filters = some f → f.item.isSome = true →
        st.current = some cur → cur.text.length < CAP_ITEMTEXT →
        extractStep p st (.itemText s last) = .ok st' → st'.current = some cur' →
        ¬((st.items.length : ℚ) ≥ p.limit) → s ≠ [] →
        cur'.text.length ≤ CAP_ITEMTEXT ∧ jsTrim cur'.text = cur'.text)
    ∧ (∀ (p : EParams) (st st' : ExtractState) (s : JStr) (cur : Item),
        st.current = some cur → jsTruthy cur.pubDate = false →
        extractStep p st (.dateText s true) = .ok st' →
        ¬((st.items.length : ℚ) ≥ p.limit) →
        st'.dateRaw.length ≤ CAP_DATE) := by
  refine ⟨fun s n => ⟨safeCap_length_le s n, safeCap_trimmed s n⟩, ?_, ?_, ?_, ?_⟩
  · intro p st st' s last cur' hstep hcur' hlim hs
    simp only [extractStep, if_neg hlim] at hstep
    cases hcur0 : st.current with
    | none =>
        rw [hcur0] at hstep
        rw [if_pos (Or.inr hs)] at hstep
        cases hstep
    | some cur =>
        rw [hcur0] at hstep
        simp only [if_pos hs] at hstep
        cases hstep
        simp only [Option.some.injEq] at hcur'
        subst hcur'
        exact ⟨safeCap_length_le _ _, safeCap_trimmed _ _⟩
  · intro p st st' s last cur' hstep hcur' hlim hs
    simp only [extractStep, if_neg hlim] at hstep
    cases hcur0 : st.current with
    | none =>
        rw [hcur0] at hstep
        rw [if_pos (Or.inr hs)] at hstep
        cases hstep
    | some cur =>
        rw [hcur0] at hstep
        simp only [if_pos hs] at hstep
        cases hstep
        simp only [Option.some.injEq] at hcur'
        subst hcur'
        exact ⟨safeCap_length_le _ _, safeCap_trimmed _ _⟩
  · intro p f st st' s last cur cur' hpf hfi hcur0 hcap hstep hcur' hlim hs
    simp only [extractStep, hpf, hcur0] at hstep
    rw [if_neg (by intro h; rw [Option.isNone_iff_eq_none] at h; rw [h] at hfi; simp at hfi)]
      at hstep
    rw [if_neg hlim] at hstep
    rw [if_neg (by omega)] at hstep
    simp only [if_pos hs] at hstep
    cases hstep
    simp only [Option.some.injEq] at hcur'
    subst hcur'
    exact ⟨safeCap_length_le _ _, safeCap_trimmed _ _⟩
  · intro p st st' s cur hcur0 hpd hstep hlim
    simp only [extractStep, if_neg hlim, hcur0, hpd] at hstep
    by_cases hraw : safeCap (st.dateRaw ++ s) CAP_DATE = []
    · rw [if_pos hraw] at hstep
      cases hstep
      simp [hraw]
    · rw [if_neg hraw] at hstep
      cases hdp : p.parseDate (safeCap (st.dateRaw ++ s) CAP_DATE) with
      | some iso =>
          rw [hdp] at hstep
          cases hstep
          exact safeCap_length_le _ _
      | none =>
          rw [hdp] at hstep
          cases hstep
          simp [CAP_DATE]

/-- Witness for C5 (amended): instantiating the title-handler conjunct at a
concrete step. -/
theorem c5_witness :
    ({ freshItem with title := "t".data } : Item).title.length ≤ CAP_TITLE ∧
    jsTrim ({ freshItem with title := "t".data } : Item).title =
      ({ freshItem with title := "t".data } : Item).title :=
  c5_caps_and_trim.2.1 pTwo ⟨[], some freshItem, [true], []⟩
    ⟨[], some { freshItem with title := "t".data }, [true], []⟩ "t".data true
    { freshItem with title := "t".data } (by decide) (by decide) (by decide) (by decide)

theorem resolveHref_ne_nil (origin h : JStr) (hh : h ≠ []) : resolveHref origin h ≠ [] := by
  unfold resolveHref
  split
  · simp [hh]
  · exact hh

/-- First-match-wins semantics of the link handler, as the claim states it:
the first element whose (resolved) href is a non-empty string provides the
link; elements without a usable href are skipped. -/
def firstHref (origin : JStr) : List (Option JStr) → Option JStr
  | [] => none
  | none :: rest => firstHref origin rest
  | some h :: rest => if h = [] then firstHref origin rest else some (resolveHref origin h)

theorem link_step_noop (p : EParams) (st : ExtractState) (cur : Item) (href : Option JStr)
    (hcur : st.current = some cur) (hl : jsTruthy cur.link = true) :
    extractStep p st (.linkElem href) = .ok st := by
  simp [extractStep, hcur, hl]

theorem link_run_noop (p : EParams) (hrefs : List (Option JStr)) :
    ∀ (st : ExtractState) (cur : Item), st.current = some cur → jsTruthy cur.link = true →
      runExtract p st (hrefs.map .linkElem) = .ok st := by
  induction hrefs with
  | nil => intro st cur _ _; rfl
  | cons o rest ih =>
      intro st cur hcur hl
      rw [List.map_cons, runExtract_cons_ok (link_step_noop p st cur o hcur hl)]
      exact ih st cur hcur hl

/-- C6: for every item, the link is set from the first link-scope element
carrying a usable (non-empty) href and is never overwritten by later matches;
an href beginning with `/` is stored as `origin + href`, any other href is
stored verbatim (this resolution is `resolveHref`, folded into `firstHref`). -/
theorem c6_link_first_match (p : EParams) (hrefs : List (Option JStr)) (st : ExtractState)
    (cur : Item) (hcur : st.current = some cur) (hlink : cur.link = none)
    (hlim : (st.items.length : ℚ) < p.limit) :
    runExtract p st (hrefs.map .linkElem) =
      .ok { st with current := some { cur with link := firstHref p.origin hrefs } }
    ∧ (∀ (st2 : ExtractState) (cur2 : Item) (href : Option JStr),
        st2.current = some cur2 → jsTruthy cur2.link = true →
        extractStep p st2 (.linkElem href) = .ok st2) := by
  constructor
  · induction hrefs generalizing st cur with
    | nil =>
        show Except.ok st = _
        rcases st with ⟨items, current, flags, draw⟩
        rcases cur with ⟨t1, t2, t3, l, pd⟩
        simp only at hcur
        simp only at hlink
        subst hcur
        subst hlink
        rfl
    | cons o rest ih =>
        have hltruthy : jsTruthy cur.link = false := by rw [hlink]; rfl
        cases o with
        | none =>
            have hstep : extractStep p st (.linkElem none) = .ok st := by
              simp [extractStep, hcur, hltruthy, not_le.mpr hlim]
            rw [List.map_cons, runExtract_cons_ok hstep]
            exact ih st cur hcur hlink hlim
        | some h =>
            by_cases hh : h = []
            · subst hh
              have hstep : extractStep p st (.linkElem (some [])) = .ok st := by
                simp [extractStep, hcur, hltruthy, not_le.mpr hlim, resolveHref]
              rw [List.map_cons, runExtract_cons_ok hstep]
              rw [show firstHref p.origin (some [] :: rest) = firstHref p.origin rest from rfl]
              exact ih st cur hcur hlink hlim
            · have hstep : extractStep p st (.linkElem (some h)) =
                  .ok { st with current := some { cur with link := some (resolveHref p.origin h) } } := by
                simp [extractStep, hcur, hltruthy, not_le.mpr hlim,
                  resolveHref_ne_nil p.origin h hh]
              rw [List.map_cons, runExtract_cons_ok hstep]
              have hnoop := link_run_noop p rest
                { st with current := some { cur with link := some (resolveHref p.origin h) } }
                { cur with link := some (resolveHref p.origin h) } rfl
                (by simp [jsTruthy, resolveHref_ne_nil p.origin h hh])
              rw [hnoop]
              have : firstHref p.origin (some h :: rest) = some (resolveHref p.origin h) := by
                simp [firstHref, hh]
              rw [this]
  · intro st2 cur2 href hc hl
    exact link_step_noop p st2 cur2 href hc hl

/-- Witness for C6: the element without href is skipped, the root-relative
href `/a` resolves against the origin, and the later absolute href `b` does
not overwrite. -/
theorem c6_witness :
    runExtract pTwo ⟨[], some freshItem, [true], []⟩
      (([none, some "/a".data, some "b".data] : List (Option JStr)).map .linkElem) =
      .ok ⟨[], some { freshItem with
        link := firstHref pTwo.origin [none, some "/a".data, some "b".data] }, [true], []⟩ :=
  (c6_link_first_match pTwo [none, some "/a".data, some "b".data]
    ⟨[], some freshItem, [true], []⟩ freshItem rfl rfl (by decide)).1

/-- Date parser for the C7 counterexample: "2024", "2024-01-01" and "02-02"
parse (to the distinct timestamps T1, T2, T3); "-01-01" alone does not. -/
def pdC7 : JStr → Option JStr := fun s =>
  if s = "2024".data then some "T1".data
  else if s = "2024-01-01".data then some "T2".data
  else if s = "02-02".data then some "T3".data
  else none

def pC7leak : EParams :=
  { limit := 5
    filters := some emptyFilters
    origin := []
    parseDate := pdC7 }

/-- C7 counterexample: the date accumulator leaking across items falsifies the
claim as stated.  Item 1's date node "2024" parses successfully, and the
handler leaves `rawText = "2024"` behind — the accumulator is reset only in
the catch branch (worker.js line 229), never after a success.  Item 2's first
date node "-01-01" fails strict parsing on its own and its second node
"02-02" parses, so the claim requires item 2's pubDate to be the second
node's timestamp (T3) — but the handler parses the polluted concatenation
"2024" + "-01-01" = "2024-01-01" successfully, sets item 2's pubDate to its
timestamp T2 (belonging to neither of item 2's nodes), and never consults the
second node. -/
theorem c7_counterexample :
    pdC7 (safeCap "-01-01".data CAP_DATE) = none ∧
    pdC7 (safeCap "02-02".data CAP_DATE) = some "T3".data ∧
    extractItems pC7leak
      [.itemStart, .titleText "a".data true, .dateText "2024".data true, .itemEnd,
       .itemStart, .titleText "b".data true, .dateText "-01-01".data true,
       .dateText "02-02".data true, .itemEnd] =
      .ok [{ freshItem with title := "a".data, pubDate := some "T1".data },
           { freshItem with title := "b".data, pubDate := some "T2".data }] ∧
    "T2".data ≠ "T3".data := by
  refine ⟨by decide, by decide, by decide, by decide⟩

/-- C7 (amended): within one item, and provided the request-level date
accumulator is empty when the item's first date node arrives (true for the
first item of a request, and after any item whose date parse attempts all
failed), an unparsable first date node followed by a parsable second node
yields the second node's canonical timestamp: the failed parse resets the
accumulator (second conjunct) and the engine keeps listening, so the first
*valid* parse wins.  The empty-accumulator restriction is necessary: the
accumulator is reset only in the parse-failure branch, never after a success
(the conclusion's `dateRaw := safeCap c2 CAP_DATE` shows the successful
parse's input being left behind), so leftover text from a previously dated
item is prepended to the next item's first node — see the counterexample. -/
theorem c7_first_valid_date (p : EParams) (st : ExtractState) (cur : Item)
    (c1 c2 iso : JStr)
    (hcur : st.current = some cur) (hpd : cur.pubDate = none)
    (hraw : st.dateRaw = []) (hlim : (st.items.length : ℚ) < p.limit)
    (h1ne : safeCap c1 CAP_DATE ≠ [])
    (h1 : p.parseDate (safeCap c1 CAP_DATE) = none)
    (h2ne : safeCap c2 CAP_DATE ≠ [])
    (h2 : p.parseDate (safeCap c2 CAP_DATE) = some iso) :
    runExtract p st [.dateText c1 true, .dateText c2 true] =
      .ok { st with current := some { cur with pubDate := some iso },
                    dateRaw := safeCap c2 CAP_DATE }
    ∧ extractStep p st (.dateText c1 true) = .ok { st with dateRaw := [] } := by
  have hpdt : jsTruthy cur.pubDate = false := by rw [hpd]; rfl
  have hstep1 : extractStep p st (.dateText c1 true) = .ok { st with dateRaw := [] } := by
    simp [extractStep, hcur, hpdt, not_le.mpr hlim, hraw, h1ne, h1]
  refine ⟨?_, hstep1⟩
  rw [runExtract_cons_ok hstep1]
  have hstep2 : extractStep p { st with dateRaw := [] } (.dateText c2 true) =
      .ok { st with current := some { cur with pubDate := some iso },
                    dateRaw := safeCap c2 CAP_DATE } := by
    simp [extractStep, hcur, hpdt, not_le.mpr hlim, h2ne, h2]
  rw [runExtract_cons_ok hstep2]
  rfl

def pC7 : EParams :=
  { limit := 5
    filters := some emptyFilters
    origin := []
    parseDate := fun s => if s = "b".data then some "1b".data else none }

/-- Witness for C7: with a date parser accepting only "b", the nodes "a" then
"b" produce the timestamp of the second node. -/
theorem c7_witness :
    runExtract pC7 ⟨[], some freshItem, [true], []⟩
      [.dateText "a".data true, .dateText "b".data true] =
      .ok ⟨[], some { freshItem with pubDate := some "1b".data }, [true],
        safeCap "b".data CAP_DATE⟩ :=
  (c7_first_valid_date pC7 ⟨[], some freshItem, [true], []⟩ freshItem
    "a".data "b".data "1b".data rfl rfl rfl (by decide) (by decide) (by decide)
    (by decide) (by decide)).1

/-- Model of the link-selector compilation with the self-reference tokens
(`src/unnamed/part_000` lines 563-565): `@` and `.` select the item container
itself; every other link selector compiles to the descendant pair. -/
def compileLinkSelector (item link : JStr) : JStr :=
  if link = "@".data ∨ link = ".".data then item else item ++ " ".data ++ link

/-- C9: the self-reference tokens `@` and `.` compile the link scope to the
item selector itself (not the descendant pair), and with the link scope thus
bound to the container, the container's own element event (fired right after
the item handler allocates the accumulator) populates the item's link from
the href carried on the container element. -/
theorem c9_self_reference (item l : JStr) (p : EParams) (st : ExtractState) (h : JStr)
    (hlim : (st.items.length : ℚ) < p.limit) (hne : h ≠ []) :
    compileLinkSelector item "@".data = item
    ∧ compileLinkSelector item ".".data = item
    ∧ (l ≠ "@".data → l ≠ ".".data →
        compileLinkSelector item l = item ++ " ".data ++ l)
    ∧ runExtract p st [.itemStart, .linkElem (some h)] =
        .ok { st with current := some { freshItem with link := some (resolveHref p.origin h) },
                      openFlags := true :: st.openFlags } := by
  refine ⟨by simp [compileLinkSelector], by simp [compileLinkSelector], ?_, ?_⟩
  · intro h1 h2
    simp [compileLinkSelector, h1, h2]
  · have hstep1 : extractStep p st .itemStart =
        .ok { st with current := some freshItem, openFlags := true :: st.openFlags } := by
      simp [extractStep, not_le.mpr hlim]
    rw [runExtract_cons_ok hstep1]
    have hstep2 : extractStep p
        { st with current := some freshItem, openFlags := true :: st.openFlags }
        (.linkElem (some h)) =
        .ok { st with current := some { freshItem with link := some (resolveHref p.origin h) },
                      openFlags := true :: st.openFlags } := by
      simp [extractStep, jsTruthy, freshItem, not_le.mpr hlim, resolveHref_ne_nil p.origin h hne]
    rw [runExtract_cons_ok hstep2]
    rfl

/-- Witness for C9: a container carrying `href="/x"` populates the link with
`origin + "/x"` when the link selector is the self-reference token. -/
theorem c9_witness :
    runExtract pTwo initState [.itemStart, .linkElem (some "/x".data)] =
      .ok { initState with
              current := some { freshItem with link := some (resolveHref pTwo.origin "/x".data) },
              openFlags := true :: initState.openFlags } :=
  (c9_self_reference [] [] pTwo initState "/x".data (by decide) (by decide)).2.2.2

/-- Replacement of one character by the `esc` callback
(worker.js line 293). -/
def escChar (c : Char) : JStr :=
  if c = '<' then "&lt;".data
  else if c = '>' then "&gt;".data
  else if c = '&' then "&amp;".data
  else [c]

/-- Model of `esc` (worker.js lines 289-294): early exit when no escapable
character is present, otherwise replace every `<`, `>`, `&`. -/
def esc (s : JStr) : JStr :=
  if s.contains '<' = false ∧ s.contains '>' = false ∧ s.contains '&' = false then s
  else s.flatMap escChar

/-- Model of `indent` (worker.js lines 284-286). -/
def indent (s : JStr) (n : Nat) : JStr := List.replicate n ' ' ++ s

/-- The per-item serialization appended by the `buildRss` loop body
(worker.js lines 268-277): title/link/guid content is escaped, description is
emitted raw inside a CDATA block, pubDate raw; each element is emitted only
when its field is truthy. -/
def itemChunk (it : Item) : JStr :=
  ("\n".data ++ indent "<item>".data 4)
  ++ (if it.title ≠ [] then
        "\n".data ++ indent ("<title>".data ++ esc it.title ++ "</title>".data) 6 else [])
  ++ (if jsTruthy it.link = true then
        "\n".data ++ indent ("<link>".data ++ esc (jsStr it.link) ++ "</link>".data) 6 else [])
  ++ (if it.desc ≠ [] then
        "\n".data ++ indent ("<description><![CDATA[".data ++ it.desc
          ++ "]]></description>".data) 6 else [])
  ++ (if jsTruthy it.pubDate = true then
        "\n".data ++ indent ("<pubDate>".data ++ jsStr it.pubDate ++ "</pubDate>".data) 6
      else [])
  ++ (if jsTruthy it.link = true then
        "\n".data ++ indent ("<guid isPermaLink=\"true\">".data ++ esc (jsStr it.link)
          ++ "</guid>".data) 6 else [])
  ++ ("\n".data ++ indent "</item>".data 4)

/-- Channel header of `buildRss` (worker.js lines 256-266), with the current
time `now` passed in (`new Date().toUTCString()` is impure); note `host` and
the channel link are escaped while the image `origin` is interpolated raw. -/
def rssHeader (url origin host now : JStr) : JStr :=
  "<?xml version=\"1.0\" encoding=\"UTF-8\"?>\n<rss version=\"2.0\">\n  <channel>\n    <title>".data
  ++ esc host
  ++ "</title>\n    <link>".data
  ++ esc url
  ++ "</link>\n    <generator>Feedmaker</generator>\n    <ttl>5</ttl>\n    <image>\n      <url>".data
  ++ origin
  ++ "/favicon.ico</url>\n    </image>\n    <lastBuildDate>".data
  ++ now
  ++ "</lastBuildDate>".data

/-- Model of `buildRss` (worker.js lines 252-282). -/
def buildRss (url origin host now : JStr) (items : List Item) : JStr :=
  rssHeader url origin host now
  ++ items.foldl (fun out it => out ++ itemChunk it) []
  ++ "\n  </channel>\n</rss>".data

/-- Every `&` in the string begins one of the three entities `esc` emits. -/
def ampOk : JStr → Bool
  | [] => true
  | '&' :: rest =>
      if "lt;".data.isPrefixOf rest then ampOk (rest.drop 3)
      else if "gt;".data.isPrefixOf rest then ampOk (rest.drop 3)
      else if "amp;".data.isPrefixOf rest then ampOk (rest.drop 4)
      else false
  | _ :: rest => ampOk rest
termination_by s => s.length
decreasing_by
  all_goals simp [List.length_drop]
  all_goals omega

theorem escChar_of_plain (c : Char) (h1 : c ≠ '<') (h2 : c ≠ '>') (h3 : c ≠ '&') :
    escChar c = [c] := by
  simp [escChar, h1, h2, h3]

theorem flatMap_escChar_of_plain :
    ∀ s : JStr, (∀ c ∈ s, c ≠ '<' ∧ c ≠ '>' ∧ c ≠ '&') → s.flatMap escChar = s
  | [], _ => rfl
  | c :: t, h => by
      have hc := h c (by simp)
      rw [List.flatMap_cons, escChar_of_plain c hc.1 hc.2.1 hc.2.2,
        flatMap_escChar_of_plain t (fun x hx => h x (by simp [hx]))]
      rfl

theorem not_mem_contains_false {c : Char} {s : JStr} (h : s.contains c = false) : c ∉ s := by
  intro hmem
  rw [List.contains_eq_any_beq] at h
  have hany : s.any (fun x => c == x) = true := List.any_eq_true.mpr ⟨c, hmem, by simp⟩
  rw [h] at hany
  cases hany

theorem esc_eq_flatMap (s : JStr) : esc s = s.flatMap escChar := by
  unfold esc
  split
  next h =>
    refine (flatMap_escChar_of_plain s ?_).symm
    intro c hc
    refine ⟨?_, ?_, ?_⟩
    · intro he; subst he; exact not_mem_contains_false h.1 hc
    · intro he; subst he; exact not_mem_contains_false h.2.1 hc
    · intro he; subst he; exact not_mem_contains_false h.2.2 hc
  next => rfl

theorem not_mem_esc (s : JStr) : '<' ∉ esc s ∧ '>' ∉ esc s := by
  rw [esc_eq_flatMap]
  constructor <;>
  · intro hmem
    rw [List.mem_flatMap] at hmem
    obtain ⟨c, _, hc⟩ := hmem
    by_cases h1 : c = '<'
    · subst h1; exact absurd hc (by decide)
    · by_cases h2 : c = '>'
      · subst h2; exact absurd hc (by decide)
      · by_cases h3 : c = '&'
        · subst h3; exact absurd hc (by decide)
        · rw [escChar_of_plain c h1 h2 h3] at hc
          simp only [List.mem_singleton] at hc
          first
            | exact h1 hc.symm
            | exact h2 hc.symm

theorem ampOk_escChar_append (c : Char) (t : JStr) : ampOk (escChar c ++ t) = ampOk t := by
  by_cases h1 : c = '<'
  · subst h1
    show ampOk ('&' :: 'l' :: 't' :: ';' :: t) = ampOk t
    simp [ampOk, List.isPrefixOf]
  · by_cases h2 : c = '>'
    · subst h2
      show ampOk ('&' :: 'g' :: 't' :: ';' :: t) = ampOk t
      simp [ampOk, List.isPrefixOf]
    · by_cases h3 : c = '&'
      · subst h3
        show ampOk ('&' :: 'a' :: 'm' :: 'p' :: ';' :: t) = ampOk t
        simp [ampOk, List.isPrefixOf]
      · rw [escChar_of_plain c h1 h2 h3]
        show ampOk (c :: t) = ampOk t
        simp [ampOk, h3]

theorem ampOk_flatMap_escChar : ∀ s : JStr, ampOk (s.flatMap escChar) = true
  | [] => by simp [ampOk]
  | c :: t => by
      rw [List.flatMap_cons, ampOk_escChar_append, ampOk_flatMap_escChar t]

theorem ampOk_esc (s : JStr) : ampOk (esc s) = true := by
  rw [esc_eq_flatMap]
  exact ampOk_flatMap_escChar s

/-- Adjacent-pair scan: does the character `a` immediately followed by `b`
occur anywhere in the string? -/
def hasPair (a b : Char) : JStr → Bool
  | x :: y :: rest => (x == a && y == b) || hasPair a b (y :: rest)
  | _ => false

theorem hasPair_cons_of {a b : Char} (x : Char) {l : JStr} (h : hasPair a b l = true) :
    hasPair a b (x :: l) = true := by
  cases l with
  | nil => cases h
  | cons y ys => simp [hasPair, h]

theorem hasPair_of_split (a b : Char) :
    ∀ (u t : JStr), hasPair a b (u ++ a :: b :: t) = true
  | [], t => by simp [hasPair]
  | x :: u', t => by
      rw [List.cons_append]
      exact hasPair_cons_of x (hasPair_of_split a b u' t)

theorem not_infix_of_hasPair_false (a b : Char) (ps l : JStr)
    (hp : hasPair a b l = false) : ¬((a :: b :: ps) <:+: l) := by
  rintro ⟨u, t, hut⟩
  have : l = u ++ a :: b :: (ps ++ t) := by
    rw [← hut]; simp
  rw [this, hasPair_of_split a b u (ps ++ t)] at hp
  cases hp

theorem hasPair_append_of {a b : Char} :
    ∀ (s : JStr) (t : JStr), hasPair a b s = false → hasPair a b t = false →
      (s.getLast? ≠ some a ∨ t.head? ≠ some b) → hasPair a b (s ++ t) = false
  | [], t, _, ht, _ => ht
  | [x], t, _, ht, hb => by
      cases t with
      | nil => rfl
      | cons y ys =>
          have hxy : (x == a && y == b) = false := by
            rcases hb with h | h
            · have hxa : x ≠ a := fun he => h (by rw [he]; rfl)
              simp [hxa]
            · have hyb : y ≠ b := fun he => h (by rw [he]; rfl)
              simp [hyb]
          simp [hasPair, hxy, ht]
  | x :: w :: s', t, hs, ht, hb => by
      have hs1 : (x == a && w == b) = false ∧ hasPair a b (w :: s') = false := by
        have := hs
        simp only [hasPair, Bool.or_eq_false_iff] at this
        exact this
      have hb' : (w :: s').getLast? ≠ some a ∨ t.head? ≠ some b := by
        rcases hb with h | h
        · left
          rwa [List.getLast?_cons_cons] at h
        · right; exact h
      rw [List.cons_append, List.cons_append]
      simp only [hasPair, Bool.or_eq_false_iff]
      refine ⟨hs1.1, ?_⟩
      have := hasPair_append_of (w :: s') t hs1.2 ht hb'
      rwa [List.cons_append] at this

theorem hasPair_false_of_not_mem {a b : Char} :
    ∀ l : JStr, a ∉ l → hasPair a b l = false
  | [], _ => rfl
  | [x], _ => rfl
  | x :: y :: rest, h => by
      have hx : x ≠ a := by intro he; exact h (by simp [he])
      have : hasPair a b (y :: rest) = false :=
        hasPair_false_of_not_mem (y :: rest) (fun hm => h (by simp [hm]))
      simp [hasPair, this, hx]

theorem mem_of_getLast?_eq_some {x : Char} :
    ∀ {l : JStr}, l.getLast? = some x → x ∈ l
  | [], h => by cases h
  | [y], h => by
      simp only [List.getLast?_singleton, Option.some.injEq] at h
      simp [h]
  | y :: z :: rest, h => by
      rw [List.getLast?_cons_cons] at h
      have := mem_of_getLast?_eq_some h
      simp [this]

theorem seg_clear (C : Char) (l1 content l2 : JStr)
    (hA : hasPair '<' C ("\n".data ++ List.replicate 6 ' ' ++ l1) = false)
    (hAl : ("\n".data ++ List.replicate 6 ' ' ++ l1).getLast? ≠ some '<')
    (hc : '<' ∉ content)
    (hl2 : hasPair '<' C l2 = false) (hl2h : l2.head? ≠ some C) :
    hasPair '<' C ("\n".data ++ indent (l1 ++ content ++ l2) 6) = false := by
  have hshape : "\n".data ++ indent (l1 ++ content ++ l2) 6 =
      ("\n".data ++ List.replicate 6 ' ' ++ l1) ++ (content ++ l2) := by
    simp [indent]
  rw [hshape]
  refine hasPair_append_of _ _ hA ?_ (Or.inl hAl)
  exact hasPair_append_of content l2 (hasPair_false_of_not_mem content hc) hl2 (Or.inr hl2h)

theorem q_append (C : Char) (hC : C ≠ '\n') (seg R : JStr)
    (h1 : hasPair '<' C seg = false) (h2 : seg.head? = some '\n')
    (hR : hasPair '<' C R = false ∧ R.head? = some '\n') :
    hasPair '<' C (seg ++ R) = false ∧ (seg ++ R).head? = some '\n' := by
  constructor
  · refine hasPair_append_of seg R h1 hR.1 (Or.inr ?_)
    rw [hR.2]
    intro hcon
    exact hC (Option.some.inj hcon).symm
  · cases seg with
    | nil => cases h2
    | cons x xs =>
        simp only [List.head?_cons, Option.some.injEq] at h2
        subst h2
        rfl

theorem q_ite (C : Char) (hC : C ≠ '\n') (cond : Prop) [Decidable cond] (seg R : JStr)
    (h1 : cond → hasPair '<' C seg = false ∧ seg.head? = some '\n')
    (hR : hasPair '<' C R = false ∧ R.head? = some '\n') :
    hasPair '<' C ((if cond then seg else []) ++ R) = false ∧
      ((if cond then seg else []) ++ R).head? = some '\n' := by
  split
  next hcond => exact q_append C hC seg R (h1 hcond).1 (h1 hcond).2 hR
  next => simpa using hR

theorem itemChunk_clear (C : Char) (hC : C ≠ '\n') (it : Item)
    (hT : it.title ≠ [] → hasPair '<' C
      ("\n".data ++ indent ("<title>".data ++ esc it.title ++ "</title>".data) 6) = false)
    (hL : jsTruthy it.link = true → hasPair '<' C
      ("\n".data ++ indent ("<link>".data ++ esc (jsStr it.link) ++ "</link>".data) 6) = false)
    (hD : it.desc ≠ [] → hasPair '<' C
      ("\n".data ++ indent ("<description><![CDATA[".data ++ it.desc
        ++ "]]></description>".data) 6) = false)
    (hP : jsTruthy it.pubDate = true → hasPair '<' C
      ("\n".data ++ indent ("<pubDate>".data ++ jsStr it.pubDate ++ "</pubDate>".data) 6) = false)
    (hG : jsTruthy it.link = true → hasPair '<' C
      ("\n".data ++ indent ("<guid isPermaLink=\"true\">".data ++ esc (jsStr it.link)
        ++ "</guid>".data) 6) = false)
    (hS1 : hasPair '<' C ("\n".data ++ indent "<item>".data 4) = false)
    (hS7 : hasPair '<' C ("\n".data ++ indent "</item>".data 4) = false) :
    hasPair '<' C (itemChunk it) = false := by
  have q7 : hasPair '<' C ("\n".data ++ indent "</item>".data 4) = false ∧
      ("\n".data ++ indent "</item>".data 4).head? = some '\n' := ⟨hS7, rfl⟩
  have q6 := q_ite C hC (jsTruthy it.link = true) _ _ (fun hc => ⟨hG hc, rfl⟩) q7
  have q5 := q_ite C hC (jsTruthy it.pubDate = true) _ _ (fun hc => ⟨hP hc, rfl⟩) q6
  have q4 := q_ite C hC (it.desc ≠ []) _ _ (fun hc => ⟨hD hc, rfl⟩) q5
  have q3 := q_ite C hC (jsTruthy it.link = true) _ _ (fun hc => ⟨hL hc, rfl⟩) q4
  have q2 := q_ite C hC (it.title ≠ []) _ _ (fun hc => ⟨hT hc, rfl⟩) q3
  have q1 := q_append C hC ("\n".data ++ indent "<item>".data 4) _ hS1 rfl q2
  unfold itemChunk
  simpa only [List.append_assoc] using q1.1

theorem pubSeg_clear (C : Char) (it : Item)
    (hdate : ∀ d, it.pubDate = some d → '<' ∉ d)
    (hA : hasPair '<' C ("\n".data ++ List.replicate 6 ' ' ++ "<pubDate>".data) = false)
    (hl2 : hasPair '<' C "</pubDate>".data = false)
    (hl2h : "</pubDate>".data.head? ≠ some C) :
    jsTruthy it.pubDate = true → hasPair '<' C
      ("\n".data ++ indent ("<pubDate>".data ++ jsStr it.pubDate ++ "</pubDate>".data) 6)
      = false := by
  intro hc
  cases hpd : it.pubDate with
  | none => rw [hpd] at hc; simp [jsTruthy] at hc
  | some d =>
      have hmem := hdate d hpd
      simp only [hpd, jsStr]
      exact seg_clear C "<pubDate>".data d "</pubDate>".data hA (by decide) hmem hl2 hl2h

/-- C8: (1) escaped content is safe: `esc` output contains no `<` and no `>`,
and every `&` in it begins one of the entities `&lt;` `&gt;` `&amp;`; the
title, link and guid element contents in `itemChunk` (and host/channel-link in
`rssHeader`) are exactly `esc` outputs by definition.  (2) For an item with no
description (and a date value free of `<`, as `toISOString` output always is),
an empty/absent title, link or date field produces no corresponding element
in the item's serialization, and no description element is emitted.  (3) An
item with no fields at all serializes as a bare `<item>` wrapper: elements are
omitted entirely, never emitted empty. -/
theorem c8_escaping_and_omission :
    (∀ s : JStr, '<' ∉ esc s ∧ '>' ∉ esc s ∧ ampOk (esc s) = true)
    ∧ (∀ it : Item, it.desc = [] → (∀ d, it.pubDate = some d → '<' ∉ d) →
        (it.title = [] → ¬("<title>".data <:+: itemChunk it))
        ∧ (it.link = none → ¬("<link>".data <:+: itemChunk it))
        ∧ (it.pubDate = none → ¬("<pubDate>".data <:+: itemChunk it))
        ∧ ¬("<description>".data <:+: itemChunk it))
    ∧ (∀ it : Item, it.title = [] → it.link = none → it.desc = [] → it.pubDate = none →
        itemChunk it = "\n    <item>\n    </item>".data) := by
  refine ⟨?_, ?_, ?_⟩
  · intro s
    exact ⟨(not_mem_esc s).1, (not_mem_esc s).2, ampOk_esc s⟩
  · intro it hdesc hdate
    refine ⟨?_, ?_, ?_, ?_⟩
    · intro htitle
      have hfalse : hasPair '<' 't' (itemChunk it) = false := by
        refine itemChunk_clear 't' (by decide) it
          (fun hc => absurd htitle hc)
          (fun _ => seg_clear 't' "<link>".data (esc (jsStr it.link)) "</link>".data
            (by decide) (by decide) (not_mem_esc _).1 (by decide) (by decide))
          (fun hc => absurd hdesc hc)
          (pubSeg_clear 't' it hdate (by decide) (by decide) (by decide))
          (fun _ => seg_clear 't' "<guid isPermaLink=\"true\">".data (esc (jsStr it.link))
            "</guid>".data (by decide) (by decide) (not_mem_esc _).1 (by decide) (by decide))
          (by decide) (by decide)
      rw [show ("<title>".data : JStr) = '<' :: 't' :: "itle>".data from by decide]
      exact not_infix_of_hasPair_false '<' 't' "itle>".data _ hfalse
    · intro hlink
      have hlf : ¬(jsTruthy it.link = true) := by simp [hlink, jsTruthy]
      have hfalse : hasPair '<' 'l' (itemChunk it) = false := by
        refine itemChunk_clear 'l' (by decide) it
          (fun _ => seg_clear 'l' "<title>".data (esc it.title) "</title>".data
            (by decide) (by decide) (not_mem_esc _).1 (by decide) (by decide))
          (fun hc => absurd hc hlf)
          (fun hc => absurd hdesc hc)
          (pubSeg_clear 'l' it hdate (by decide) (by decide) (by decide))
          (fun hc => absurd hc hlf)
          (by decide) (by decide)
      rw [show ("<link>".data : JStr) = '<' :: 'l' :: "ink>".data from by decide]
      exact not_infix_of_hasPair_false '<' 'l' "ink>".data _ hfalse
    · intro hpdnone
      have hpf : ¬(jsTruthy it.pubDate = true) := by simp [hpdnone, jsTruthy]
      have hfalse : hasPair '<' 'p' (itemChunk it) = false := by
        refine itemChunk_clear 'p' (by decide) it
          (fun _ => seg_clear 'p' "<title>".data (esc it.title) "</title>".data
            (by decide) (by decide) (not_mem_esc _).1 (by decide) (by decide))
          (fun _ => seg_clear 'p' "<link>".data (esc (jsStr it.link)) "</link>".data
            (by decide) (by decide) (not_mem_esc _).1 (by decide) (by decide))
          (fun hc => absurd hdesc hc)
          (fun hc => absurd hc hpf)
          (fun _ => seg_clear 'p' "<guid isPermaLink=\"true\">".data (esc (jsStr it.link))
            "</guid>".data (by decide) (by decide) (not_mem_esc _).1 (by decide) (by decide))
          (by decide) (by decide)
      rw [show ("<pubDate>".data : JStr) = '<' :: 'p' :: "ubDate>".data from by decide]
      exact not_infix_of_hasPair_false '<' 'p' "ubDate>".data _ hfalse
    · have hfalse : hasPair '<' 'd' (itemChunk it) = false := by
        refine itemChunk_clear 'd' (by decide) it
          (fun _ => seg_clear 'd' "<title>".data (esc it.title) "</title>".data
            (by decide) (by decide) (not_mem_esc _).1 (by decide) (by decide))
          (fun _ => seg_clear 'd' "<link>".data (esc (jsStr it.link)) "</link>".data
            (by decide) (by decide) (not_mem_esc _).1 (by decide) (by decide))
          (fun hc => absurd hdesc hc)
          (pubSeg_clear 'd' it hdate (by decide) (by decide) (by decide))
          (fun _ => seg_clear 'd' "<guid isPermaLink=\"true\">".data (esc (jsStr it.link))
            "</guid>".data (by decide) (by decide) (not_mem_esc _).1 (by decide) (by decide))
          (by decide) (by decide)
      rw [show ("<description>".data : JStr) = '<' :: 'd' :: "escription>".data from by decide]
      exact not_infix_of_hasPair_false '<' 'd' "escription>".data _ hfalse
  · intro it htitle hlink hdesc hpdnone
    simp only [itemChunk, htitle, hlink, hdesc, hpdnone, jsTruthy, indent]
    decide

/-- Witness for C8: a title-only item emits no description element. -/
theorem c8_witness :
    ¬("<description>".data <:+: itemChunk ⟨[], "T".data, [], none, none⟩) :=
  ((c8_escaping_and_omission.2.1 ⟨[], "T".data, [], none, none⟩ rfl
    (fun _ hd => Option.noConfusion hd)).2.2.2)

/-- The hop-by-hop / sensitive header names dropped by `sanitizeHeaders`
(worker.js lines 336-347). -/
def dropHeaderSet : List JStr :=
  ["connection".data, "proxy-connection".data, "keep-alive".data,
   "transfer-encoding".data, "upgrade".data, "te".data, "host".data,
   "content-length".data, "content-encoding".data, "proxy-authorization".data]

/-- JS object property assignment `out[k] = v` on an insertion-ordered object
modelled as an association list: overwrite in place when the key exists,
append otherwise. -/
def objInsert (m : List (JStr × JStr)) (k v : JStr) : List (JStr × JStr) :=
  if m.any (fun e => e.1 == k) then m.map (fun e => if e.1 == k then (k, v) else e)
  else m ++ [(k, v)]

/-- Model of `sanitizeHeaders` (worker.js lines 333-357): copy every entry
whose lowercased name is not in the drop set; an empty result is returned as
the empty object. -/
def sanitizeHeaders (headers : List (JStr × JStr)) : List (JStr × JStr) :=
  let out := headers.foldl (fun out kv =>
    if jsToLower kv.1 ∈ dropHeaderSet then out else objInsert out kv.1 kv.2) []
  if out.isEmpty then [] else out

theorem sanitizeHeaders_fold_eq :
    ∀ (m out : List (JStr × JStr)),
      (∀ kv ∈ m, ∀ e ∈ out, e.1 ≠ kv.1) → (m.map Prod.fst).Nodup →
      m.foldl (fun out kv =>
        if jsToLower kv.1 ∈ dropHeaderSet then out else objInsert out kv.1 kv.2) out =
      out ++ m.filter (fun kv => decide (jsToLower kv.1 ∉ dropHeaderSet))
  | [], out, _, _ => by simp
  | hd :: rest, out, hfresh, hnd => by
      have hnd2 : (hd.1 :: rest.map Prod.fst).Nodup := by simpa using hnd
      have hk : hd.1 ∉ rest.map Prod.fst := (List.nodup_cons.mp hnd2).1
      have hndrest : (rest.map Prod.fst).Nodup := (List.nodup_cons.mp hnd2).2
      rw [List.foldl_cons]
      by_cases hdrop : jsToLower hd.1 ∈ dropHeaderSet
      · rw [if_pos hdrop]
        rw [sanitizeHeaders_fold_eq rest out
          (fun kv2 h2 e he => hfresh kv2 (by simp [h2]) e he) hndrest]
        have hfc : (List.filter (fun kv => decide (jsToLower kv.1 ∉ dropHeaderSet))
            (hd :: rest)) =
            List.filter (fun kv => decide (jsToLower kv.1 ∉ dropHeaderSet)) rest := by
          rw [List.filter_cons]
          simp [hdrop]
        rw [hfc]
      · rw [if_neg hdrop]
        have hins : objInsert out hd.1 hd.2 = out ++ [hd] := by
          unfold objInsert
          have hany : out.any (fun e => e.1 == hd.1) = false := by
            rw [List.any_eq_false]
            intro e he
            simp only [beq_iff_eq]
            exact hfresh hd (by simp) e he
          rw [hany]
          simp
        rw [hins]
        have hfresh2 : ∀ kv ∈ rest, ∀ e ∈ out ++ [hd], e.1 ≠ kv.1 := by
          intro kv2 h2 e he
          rcases List.mem_append.mp he with h1 | h1
          · exact hfresh kv2 (by simp [h2]) e h1
          · have he2 : e = hd := by simpa using h1
            subst he2
            intro hcon
            exact hk (by rw [hcon]; exact List.mem_map_of_mem Prod.fst h2)
        rw [sanitizeHeaders_fold_eq rest (out ++ [hd]) hfresh2 hndrest]
        have hfc : (List.filter (fun kv => decide (jsToLower kv.1 ∉ dropHeaderSet))
            (hd :: rest)) =
            hd :: List.filter (fun kv => decide (jsToLower kv.1 ∉ dropHeaderSet)) rest := by
          rw [List.filter_cons]
          simp [hdrop]
        rw [hfc]
        simp

/-- C10: for every header map (distinct names, as JS object keys are), the
sanitized map contains no entry whose name lowercases into the drop set, and
every other entry passes through unchanged, in order: the result is exactly
the filter of the input. -/
theorem c10_sanitizeHeaders (m : List (JStr × JStr)) (hnd : (m.map Prod.fst).Nodup) :
    sanitizeHeaders m = m.filter (fun kv => decide (jsToLower kv.1 ∉ dropHeaderSet))
    ∧ (∀ kv ∈ sanitizeHeaders m, jsToLower kv.1 ∉ dropHeaderSet) := by
  have heq : sanitizeHeaders m =
      m.filter (fun kv => decide (jsToLower kv.1 ∉ dropHeaderSet)) := by
    unfold sanitizeHeaders
    rw [sanitizeHeaders_fold_eq m [] (by intro kv _ e he; cases he) hnd]
    simp only [List.nil_append]
    split
    next hemp =>
      rw [List.isEmpty_iff] at hemp
      rw [hemp]
    next => rfl
  refine ⟨heq, ?_⟩
  intro kv hkv
  rw [heq] at hkv
  have := List.of_mem_filter hkv
  simpa using this

/-- Witness for C10: the `Connection` header (case-insensitively in the drop
set) is dropped while `X-Api` passes through. -/
theorem c10_witness :
    sanitizeHeaders [("Connection".data, "keep".data), ("X-Api".data, "y".data)] =
      ([("Connection".data, "keep".data), ("X-Api".data, "y".data)] :
        List (JStr × JStr)).filter (fun kv => decide (jsToLower kv.1 ∉ dropHeaderSet)) :=
  (c10_sanitizeHeaders [("Connection".data, "keep".data), ("X-Api".data, "y".data)]
    (by decide)).1
